import Mathlib

/-!
Verification of zonemaster-ldns, `src/assist.c`.

A shallow embedding of the two functions of `assist.c` that compute something,
`randomize_capitalization` and `rr2sv`, and the properties proved about them.

Conventions of the embedding:

* a C `char` is its byte value, a `Nat`;
* memory is a finite list of bytes indexed by address, a pointer is an address, and an
  address past the end of the list reads as the NUL byte;
* a C string value (the class name handed to Perl, a type mnemonic) is the list of its bytes
  before the terminating NUL;
* the random source read by `Drand01()` is the sequence `rng : Nat → ℚ` of the values it will
  return, and the process state records how many of them have been taken.  Every finite
  `double` is a rational and `0.5` is exactly representable, so the comparison
  `Drand01() < 0.5` is the comparison of rationals.
-/

namespace Assist

/-! ## C library and Perl API used by `assist.c` -/

/-- The bytes of a string literal. -/
def bytes (s : String) : List Nat := s.toList.map Char.toNat

/-- Modelled from the spec: the C library's `tolower` is not under src/.  The spec speaks of
ASCII letters only, which is `tolower` in the "C" locale: the letters `A`..`Z` go to `a`..`z`
and every other value is returned as it is. -/
def tolower (c : Nat) : Nat := if 65 ≤ c ∧ c ≤ 90 then c + 32 else c

/-- Modelled from the spec: the C library's `toupper` is not under src/.  The spec speaks of
ASCII letters only, which is `toupper` in the "C" locale: the letters `a`..`z` go to `A`..`Z`
and every other value is returned as it is. -/
def toupper (c : Nat) : Nat := if 97 ≤ c ∧ c ≤ 122 then c - 32 else c

/-- The part of the process state `randomize_capitalization` reads and writes: the bytes of
memory and the number of draws already taken from the random source. -/
structure Process where
  mem : List Nat
  drawn : Nat
deriving DecidableEq

/-- Read of the byte at address `a` (`*a`). -/
def load (p : Process) (a : Nat) : Nat := p.mem.getD a 0

/-- Write of the byte `c` at address `a` (`*a = c`). -/
def store (p : Process) (a : Nat) (c : Nat) : Process := { p with mem := p.mem.set a c }

/-- Modelled from the spec: Perl's macro `Drand01()` is not under src/.  One draw from the
random source: the next value of the sequence `rng`, and the state after the draw. -/
def Drand01 (rng : Nat → ℚ) (p : Process) : ℚ × Process :=
  (rng p.drawn, { p with drawn := p.drawn + 1 })

/-! ## `randomize_capitalization` -/

/-- The loop `while(*str) { if(Drand01() < 0.5) *str = tolower(*str); else *str = toupper(*str);
str++; }` of `randomize_capitalization`, from the pointer `str` on. -/
def randomize_loop (rng : Nat → ℚ) (str : Nat) (p : Process) : Process :=
  if h : load p str ≠ 0 then
    let r := Drand01 rng p
    let p1 :=
      if r.1 < 0.5 then store r.2 str (tolower (load r.2 str))
      else store r.2 str (toupper (load r.2 str))
    randomize_loop rng (str + 1) p1
  else p
termination_by p.mem.length - str
decreasing_by
  have hlt : str < p.mem.length := by
    by_contra hc
    exact h (List.getD_eq_default _ _ (Nat.le_of_not_lt hc))
  have hlen : ∀ c, (store (Drand01 rng p).2 str c).mem.length = p.mem.length := by
    intro c; simp [store, Drand01]
  split <;> simp only [hlen] <;> omega

/-- The function `randomize_capitalization(char *in)`: the flag `RANDOMIZE` says whether the
preprocessor symbol of that name is defined.  Returns the returned pointer and the state
after the call. -/
def randomize_capitalization (RANDOMIZE : Bool) (rng : Nat → ℚ) (inp : Nat) (p : Process) :
    Nat × Process :=
  if RANDOMIZE then
    let str := inp
    (inp, randomize_loop rng str p)
  else (inp, p)

/-! ### Observations on memory -/

/-- The C string at address `s`: the bytes from `s` up to the first NUL. -/
def cstr (mem : List Nat) (s : Nat) : List Nat := (mem.drop s).takeWhile (· ≠ 0)

/-- The C `strlen` of the string at address `s`. -/
def strlen (mem : List Nat) (s : Nat) : Nat := (cstr mem s).length

/-- An ASCII letter, `A`..`Z` or `a`..`z`. -/
def isAsciiLetter (c : Nat) : Prop := (65 ≤ c ∧ c ≤ 90) ∨ (97 ≤ c ∧ c ≤ 122)

instance (c : Nat) : Decidable (isAsciiLetter c) := by
  unfold isAsciiLetter; infer_instance

/-- The byte `o` is the lowercase form of the ASCII letter `c`: a lowercase letter, equal to `c`
or 32 above it. -/
def IsLowercaseOf (o c : Nat) : Prop := 97 ≤ o ∧ o ≤ 122 ∧ (o = c ∨ o = c + 32)

/-- The byte `o` is the uppercase form of the ASCII letter `c`: an uppercase letter, equal to
`c` or 32 below it. -/
def IsUppercaseOf (o c : Nat) : Prop := 65 ≤ o ∧ o ≤ 90 ∧ (o = c ∨ o + 32 = c)

instance (o c : Nat) : Decidable (IsLowercaseOf o c) := by
  unfold IsLowercaseOf; infer_instance

instance (o c : Nat) : Decidable (IsUppercaseOf o c) := by
  unfold IsUppercaseOf; infer_instance

/-! ### The loop as a function on the bytes from `str` on -/

/-- What the loop makes of the bytes `l` found from `str` on, the next draw being the `k`-th. -/
def recase (rng : Nat → ℚ) : Nat → List Nat → List Nat
  | _, [] => []
  | k, c :: cs =>
    if c = 0 then c :: cs
    else (if rng k < 0.5 then tolower c else toupper c) :: recase rng (k + 1) cs

/-! ## `rr2sv` -/

/-- Modelled from the spec: the C library's `snprintf` is not under src/ and the spec does not
describe it; this follows the C standard for `snprintf(buf, size, "<lit>%s", arg)`: the string
left in `buf` is the formatted text `lit ++ arg` cut to its first `size - 1` bytes, the last
byte written being the NUL. -/
def snprintf (size : Nat) (lit arg : List Nat) : List Nat := (lit ++ arg).take (size - 1)

/-- Modelled from the spec: the C library's `strncmp` is not under src/ and the spec does not
describe it; this follows the C standard for `strncmp(s1, s2, n)`: the first `n` bytes of the
two strings are compared, the NUL that ends a string taking part as the byte 0; the result is 0
when they agree and the difference of the first two bytes that differ otherwise. -/
def strncmp : List Nat → List Nat → Nat → Int
  | _, _, 0 => 0
  | [], [], _ + 1 => 0
  | [], b :: _, _ + 1 => 0 - (b : Int)
  | a :: _, [], _ + 1 => (a : Int) - 0
  | a :: s1, b :: s2, n + 1 => if a = b then strncmp s1 s2 n else (a : Int) - (b : Int)

/-- A Perl scalar as far as `rr2sv` goes: undefined, or a reference to a new scalar that holds
the pointer `pv` and is blessed into the package `classname`. -/
inductive SV where
  | undef : SV
  | ref (classname : List Nat) (pv : Nat) : SV
deriving DecidableEq

/-- The package a scalar is blessed into, if any. -/
def SV.classname : SV → Option (List Nat)
  | SV.undef => none
  | SV.ref cn _ => some cn

/-- The pointer a scalar wraps, if any. -/
def SV.pv : SV → Option Nat
  | SV.undef => none
  | SV.ref _ pv => some pv

/-- Modelled from the spec: Perl's `newSV` is not under src/ and the spec does not describe
it; by the Perl API `newSV(len)` is a new scalar, undefined. -/
def newSV (_len : Nat) : SV := SV.undef

/-- Modelled from the spec: Perl's `sv_setref_pv` is not under src/; the spec calls it wrapping
a native pointer into an object tagged by a class.  By the Perl API, after
`sv_setref_pv(rv, classname, pv)` the scalar `rv` is a reference to a new scalar holding `pv`,
blessed into `classname`; for the NULL pointer `rv` is set to undef instead. -/
def sv_setref_pv (_rv : SV) (classname : List Nat) (pv : Nat) : SV :=
  if pv = 0 then SV.undef else SV.ref classname pv

/-- The class name `rr2sv` formats into its buffer `char rrclass[30]` for the mnemonic `type`:
`snprintf(rrclass, 30, "Net::LDNS::RR::%s", type)`. -/
def rr2sv_rrclass (type : List Nat) : List Nat :=
  snprintf 30 (bytes "Net::LDNS::RR::") type

/-- The function `rr2sv(ldns_rr *rr)`.  The two functions of the ldns library it calls are
parameters: `ldns_rr_get_type` reads the type code of the record at a pointer, and
`ldns_rr_type2str` gives the mnemonic of a type code as a fresh string (released by the
`free(type)` before the return, which changes nothing in the result).  The NULL that
`ldns_rr_type2str` returns when it cannot allocate is left out. -/
def rr2sv (ldns_rr_get_type : Nat → Nat) (ldns_rr_type2str : Nat → List Nat) (rr : Nat) : SV :=
  let type := ldns_rr_type2str (ldns_rr_get_type rr)
  let rrclass := rr2sv_rrclass type
  let rr_sv := newSV 0
  if strncmp type (bytes "TYPE") 4 = 0 then
    sv_setref_pv rr_sv (bytes "Net::LDNS::RR") rr
  else
    sv_setref_pv rr_sv rrclass rr

/-! ## Proofs: the loop -/

theorem lt_length_of_load_ne {p : Process} {a : Nat} (h : load p a ≠ 0) :
    a < p.mem.length := by
  by_contra hc
  exact h (List.getD_eq_default _ _ (Nat.le_of_not_lt hc))

theorem tolower_ne_zero {c : Nat} (h : c ≠ 0) : tolower c ≠ 0 := by
  unfold tolower; split <;> omega

theorem toupper_ne_zero {c : Nat} (h : c ≠ 0) : toupper c ≠ 0 := by
  unfold toupper; split <;> omega

theorem tolower_tolower (c : Nat) : tolower (tolower c) = tolower c := by
  unfold tolower; split_ifs <;> omega

theorem tolower_toupper (c : Nat) : tolower (toupper c) = tolower c := by
  unfold tolower toupper; split_ifs <;> omega

theorem take_succ_set {l : List Nat} {i : Nat} (h : i < l.length) (a : Nat) :
    (l.set i a).take (i + 1) = l.take i ++ [a] := by
  have hlen : (l.take i).length = i := by
    rw [List.length_take]; omega
  rw [List.set_eq_take_append_cons_drop, if_pos h, List.take_append_eq_append_take, hlen,
    List.take_of_length_le (by omega)]
  simp

theorem strlen_step {mem : List Nat} {str : Nat} (h : str < mem.length) (hc : mem[str] ≠ 0) :
    strlen mem str = strlen mem (str + 1) + 1 := by
  unfold strlen cstr
  rw [List.drop_eq_getElem_cons h, List.takeWhile_cons]
  simp [hc]

theorem strlen_set {mem : List Nat} {str : Nat} (a : Nat) :
    strlen (mem.set str a) (str + 1) = strlen mem (str + 1) := by
  simp [strlen, cstr, List.drop_set_of_lt a mem (Nat.lt_succ_self str)]

/-- The loop run from `str` rewrites the bytes from `str` on by `recase` and leaves the bytes
before `str` alone; it takes one draw for each byte of the string at `str`. -/
theorem randomize_loop_eq (rng : Nat → ℚ) (n : Nat) :
    ∀ (str : Nat) (p : Process), p.mem.length - str = n →
      randomize_loop rng str p =
        { mem := p.mem.take str ++ recase rng p.drawn (p.mem.drop str),
          drawn := p.drawn + strlen p.mem str } := by
  induction n with
  | zero =>
    intro str p hn
    have hle : p.mem.length ≤ str := by omega
    have h0 : load p str = 0 := List.getD_eq_default _ _ hle
    rw [randomize_loop]
    simp [h0, strlen, cstr, List.drop_of_length_le hle, List.take_of_length_le hle, recase]
  | succ n ih =>
    intro str p hn
    have hlt : str < p.mem.length := by omega
    have hd : p.mem.drop str = p.mem[str] :: p.mem.drop (str + 1) :=
      List.drop_eq_getElem_cons hlt
    have hload : load p str = p.mem[str] := by
      simp [load, List.getD_eq_getElem?_getD, List.getElem?_eq_getElem hlt]
    rw [randomize_loop]
    by_cases h0 : load p str = 0
    · have hc : p.mem[str] = 0 := by rw [← hload]; exact h0
      simp only [h0, ne_eq, not_true_eq_false, dite_false]
      rw [hd]
      simp only [strlen, cstr, hd, recase, hc, if_true, List.takeWhile_cons, ne_eq,
        not_true_eq_false, decide_False, Bool.false_eq_true, if_false, List.length_nil,
        Nat.add_zero]
      rw [← hc, ← hd, List.take_append_drop]
    · have hc : p.mem[str] ≠ 0 := by rw [← hload]; exact h0
      simp only [h0, ne_eq, not_false_eq_true, dite_true]
      have hp1 : (if (Drand01 rng p).1 < 0.5
            then store (Drand01 rng p).2 str (tolower (load (Drand01 rng p).2 str))
            else store (Drand01 rng p).2 str (toupper (load (Drand01 rng p).2 str))) =
          { mem := p.mem.set str (if rng p.drawn < 0.5 then tolower p.mem[str]
                                  else toupper p.mem[str]),
            drawn := p.drawn + 1 } := by
        have hl : load (Drand01 rng p).2 str = p.mem[str] := by rw [← hload]; rfl
        have h1 : (Drand01 rng p).1 = rng p.drawn := rfl
        rw [hl, h1]
        by_cases hq : rng p.drawn < 0.5
        · rw [if_pos hq, if_pos hq]; rfl
        · rw [if_neg hq, if_neg hq]; rfl
      rw [hp1, ih (str + 1) _ (by simp only [List.length_set]; omega)]
      simp only [take_succ_set hlt, List.drop_set_of_lt _ p.mem (Nat.lt_succ_self str),
        strlen_set, strlen_step hlt hc, hd, recase, if_neg hc, List.append_assoc,
        List.singleton_append]
      congr 1
      omega

/-! ## Proofs: what `recase` does to the bytes -/

theorem takeWhile_cons_ne {c : Nat} (hc : c ≠ 0) (l : List Nat) :
    (c :: l).takeWhile (· ≠ 0) = c :: l.takeWhile (· ≠ 0) := by
  simp [List.takeWhile_cons, hc]

theorem takeWhile_cons_zero (l : List Nat) : ((0 : Nat) :: l).takeWhile (· ≠ 0) = [] := by
  simp [List.takeWhile_cons]

theorem recase_cons_ne (rng : Nat → ℚ) (k : Nat) {c : Nat} (hc : c ≠ 0) (cs : List Nat) :
    recase rng k (c :: cs) =
      (if rng k < 0.5 then tolower c else toupper c) :: recase rng (k + 1) cs := by
  simp [recase, hc]

theorem recase_cons_zero (rng : Nat → ℚ) (k : Nat) (cs : List Nat) :
    recase rng k (0 :: cs) = 0 :: cs := by
  simp [recase]

theorem pick_ne_zero (d : ℚ) {c : Nat} (hc : c ≠ 0) :
    (if d < 0.5 then tolower c else toupper c) ≠ 0 := by
  split
  · exact tolower_ne_zero hc
  · exact toupper_ne_zero hc

theorem recase_length (rng : Nat → ℚ) (l : List Nat) :
    ∀ k, (recase rng k l).length = l.length := by
  induction l with
  | nil => intro k; rfl
  | cons c cs ih =>
    intro k
    by_cases hc : c = 0
    · subst hc; rw [recase_cons_zero]
    · rw [recase_cons_ne rng k hc, List.length_cons, List.length_cons, ih]

theorem recase_takeWhile_length (rng : Nat → ℚ) (l : List Nat) :
    ∀ k, ((recase rng k l).takeWhile (· ≠ 0)).length = (l.takeWhile (· ≠ 0)).length := by
  induction l with
  | nil => intro k; rfl
  | cons c cs ih =>
    intro k
    by_cases hc : c = 0
    · subst hc; rw [recase_cons_zero]
    · rw [recase_cons_ne rng k hc, takeWhile_cons_ne (pick_ne_zero (rng k) hc),
        takeWhile_cons_ne hc, List.length_cons, List.length_cons, ih]

theorem recase_getD_lt (rng : Nat → ℚ) (l : List Nat) :
    ∀ k i, i < (l.takeWhile (· ≠ 0)).length →
      (recase rng k l).getD i 0 =
        if rng (k + i) < 0.5 then tolower (l.getD i 0) else toupper (l.getD i 0) := by
  induction l with
  | nil => intro k i hi; simp at hi
  | cons c cs ih =>
    intro k i hi
    by_cases hc : c = 0
    · subst hc; rw [takeWhile_cons_zero] at hi; simp at hi
    · rw [takeWhile_cons_ne hc, List.length_cons] at hi
      rw [recase_cons_ne rng k hc]
      cases i with
      | zero => simp
      | succ j =>
        rw [List.getD_cons_succ, List.getD_cons_succ, ih (k + 1) j (by omega),
          show k + 1 + j = k + (j + 1) by omega]

theorem recase_getD_ge (rng : Nat → ℚ) (l : List Nat) :
    ∀ k i, (l.takeWhile (· ≠ 0)).length ≤ i → (recase rng k l).getD i 0 = l.getD i 0 := by
  induction l with
  | nil => intro k i _; rfl
  | cons c cs ih =>
    intro k i hi
    by_cases hc : c = 0
    · subst hc; rw [recase_cons_zero]
    · rw [takeWhile_cons_ne hc, List.length_cons] at hi
      rw [recase_cons_ne rng k hc]
      cases i with
      | zero => omega
      | succ j => rw [List.getD_cons_succ, List.getD_cons_succ, ih (k + 1) j (by omega)]

theorem recase_lower (rng : Nat → ℚ) (l : List Nat) :
    ∀ k, ((recase rng k l).takeWhile (· ≠ 0)).map tolower =
      (l.takeWhile (· ≠ 0)).map tolower := by
  induction l with
  | nil => intro k; rfl
  | cons c cs ih =>
    intro k
    by_cases hc : c = 0
    · subst hc; rw [recase_cons_zero]
    · rw [recase_cons_ne rng k hc, takeWhile_cons_ne (pick_ne_zero (rng k) hc),
        takeWhile_cons_ne hc, List.map_cons, List.map_cons, ih]
      congr 1
      split
      · exact tolower_tolower c
      · exact tolower_toupper c

theorem recase_all_lower (rng : Nat → ℚ) (hlow : ∀ n, rng n < 0.5) (l : List Nat) :
    ∀ k, (recase rng k l).takeWhile (· ≠ 0) = (l.takeWhile (· ≠ 0)).map tolower := by
  induction l with
  | nil => intro k; rfl
  | cons c cs ih =>
    intro k
    by_cases hc : c = 0
    · subst hc; rw [recase_cons_zero, takeWhile_cons_zero]; rfl
    · rw [recase_cons_ne rng k hc, if_pos (hlow k), takeWhile_cons_ne (tolower_ne_zero hc),
        takeWhile_cons_ne hc, List.map_cons, ih]

theorem recase_all_upper (rng : Nat → ℚ) (hup : ∀ n, 0.5 ≤ rng n) (l : List Nat) :
    ∀ k, (recase rng k l).takeWhile (· ≠ 0) = (l.takeWhile (· ≠ 0)).map toupper := by
  induction l with
  | nil => intro k; rfl
  | cons c cs ih =>
    intro k
    by_cases hc : c = 0
    · subst hc; rw [recase_cons_zero, takeWhile_cons_zero]; rfl
    · rw [recase_cons_ne rng k hc, if_neg (not_lt.mpr (hup k)),
        takeWhile_cons_ne (toupper_ne_zero hc), takeWhile_cons_ne hc, List.map_cons, ih]

/-! ## Proofs: from the bytes at `in` to memory -/

theorem drop_take_append (mem x : List Nat) (s : Nat) (hx : s > mem.length → x = []) :
    (mem.take s ++ x).drop s = x := by
  by_cases h : s ≤ mem.length
  · have hl : (mem.take s).length = s := by rw [List.length_take]; omega
    rw [List.drop_append_eq_append_drop, hl, Nat.sub_self, List.drop_zero,
      List.drop_of_length_le (by omega), List.nil_append]
  · rw [hx (by omega), List.append_nil, List.drop_take]
    simp

theorem recase_drop_nil (rng : Nat → ℚ) (k : Nat) (mem : List Nat) (s : Nat)
    (h : s > mem.length) : recase rng k (mem.drop s) = [] := by
  rw [List.drop_of_length_le (by omega)]; rfl

/-- The state `randomize_capitalization` leaves when `RANDOMIZE` is defined. -/
theorem randomize_capitalization_on (rng : Nat → ℚ) (inp : Nat) (p : Process) :
    randomize_capitalization true rng inp p =
      (inp, { mem := p.mem.take inp ++ recase rng p.drawn (p.mem.drop inp),
              drawn := p.drawn + strlen p.mem inp }) := by
  simp only [randomize_capitalization, if_true]
  rw [randomize_loop_eq rng _ inp p rfl]

theorem cstr_after (rng : Nat → ℚ) (k : Nat) (mem : List Nat) (s : Nat) :
    cstr (mem.take s ++ recase rng k (mem.drop s)) s =
      (recase rng k (mem.drop s)).takeWhile (· ≠ 0) := by
  unfold cstr
  rw [drop_take_append _ _ _ (recase_drop_nil rng k mem s)]

theorem getD_drop (mem : List Nat) (s i : Nat) : (mem.drop s).getD i 0 = mem.getD (s + i) 0 := by
  simp [List.getD_eq_getElem?_getD, List.getElem?_drop]

theorem getD_after (rng : Nat → ℚ) (k : Nat) (mem : List Nat) (s i : Nat) :
    (mem.take s ++ recase rng k (mem.drop s)).getD (s + i) 0 =
      (recase rng k (mem.drop s)).getD i 0 := by
  rw [← getD_drop, drop_take_append _ _ _ (recase_drop_nil rng k mem s)]

theorem getD_before (mem x : List Nat) (s a : Nat) (h : a < s)
    (hx : s > mem.length → x = []) : (mem.take s ++ x).getD a 0 = mem.getD a 0 := by
  by_cases ha : a < mem.length
  · have hl : a < (mem.take s).length := by rw [List.length_take]; omega
    simp only [List.getD_eq_getElem?_getD]
    rw [List.getElem?_append_left hl, List.getElem?_take_of_lt h]
  · rw [hx (by omega), List.append_nil, List.take_of_length_le (by omega)]

/-- With `RANDOMIZE` defined, the byte at position `i` of the output is the byte at position `i`
of the input, put through `tolower` or `toupper` as the `i`-th draw of the call says. -/
theorem load_after (rng : Nat → ℚ) (inp : Nat) (p : Process) (i : Nat)
    (hi : i < strlen p.mem inp) :
    load (randomize_capitalization true rng inp p).2
        ((randomize_capitalization true rng inp p).1 + i) =
      if rng (p.drawn + i) < 0.5 then tolower (load p (inp + i))
      else toupper (load p (inp + i)) := by
  rw [randomize_capitalization_on]
  simp only [load]
  rw [getD_after, recase_getD_lt rng _ _ _ hi, getD_drop]

/-- With `RANDOMIZE` defined, the bytes outside the input string are not written. -/
theorem load_outside (rng : Nat → ℚ) (inp : Nat) (p : Process) (a : Nat)
    (ha : a < inp ∨ inp + strlen p.mem inp ≤ a) :
    load (randomize_capitalization true rng inp p).2 a = load p a := by
  rw [randomize_capitalization_on]
  simp only [load]
  rcases ha with ha | ha
  · exact getD_before _ _ _ _ ha (recase_drop_nil rng _ _ _)
  · obtain ⟨j, rfl⟩ : ∃ j, a = inp + j := ⟨a - inp, by omega⟩
    rw [getD_after, recase_getD_ge rng _ _ _ (by unfold strlen cstr at ha; omega), getD_drop]

theorem cstr_on (rng : Nat → ℚ) (inp : Nat) (p : Process) :
    cstr (randomize_capitalization true rng inp p).2.mem
        (randomize_capitalization true rng inp p).1 =
      (recase rng p.drawn (p.mem.drop inp)).takeWhile (· ≠ 0) := by
  rw [randomize_capitalization_on]
  exact cstr_after rng _ _ _

theorem randomize_capitalization_off (rng : Nat → ℚ) (inp : Nat) (p : Process) :
    randomize_capitalization false rng inp p = (inp, p) := rfl

/-! ## The claims on `randomize_capitalization` -/

/-- C1: with `RANDOMIZE` defined, the character at each position of the input string is decided
by the draw taken for it, with threshold 0.5: an ASCII letter becomes its lowercase form when
the draw is below 0.5 and its uppercase form when the draw is 0.5 or more, and a character that
is not an ASCII letter is the same in the output as in the input. -/
theorem C1_threshold_decides_case (rng : Nat → ℚ) (inp : Nat) (p : Process) (i : Nat)
    (hi : i < strlen p.mem inp) :
    let r := randomize_capitalization true rng inp p
    let c := load p (inp + i)
    let o := load r.2 (r.1 + i)
    let d := rng (p.drawn + i)
    (isAsciiLetter c → (d < 0.5 → IsLowercaseOf o c) ∧ (0.5 ≤ d → IsUppercaseOf o c)) ∧
      (¬ isAsciiLetter c → o = c) := by
  intro r c o d
  have ho : o = if d < 0.5 then tolower c else toupper c := load_after rng inp p i hi
  refine ⟨fun hc => ⟨fun hd => ?_, fun hd => ?_⟩, fun hc => ?_⟩
  · rw [ho, if_pos hd]
    unfold isAsciiLetter at hc
    unfold IsLowercaseOf tolower
    split <;> omega
  · rw [ho, if_neg (not_lt.mpr hd)]
    unfold isAsciiLetter at hc
    unfold IsUppercaseOf toupper
    split <;> omega
  · rw [ho]
    unfold isAsciiLetter at hc
    unfold tolower toupper
    split_ifs <;> omega

/-- Witness of C1: on the string "aB" at address 1 with every draw 0.25, the letter `B` at
position 1 of the string becomes its lowercase form. -/
theorem C1_threshold_decides_case_witness :
    1 < strlen (7 :: (bytes "aB" ++ [0])) 1 ∧
      IsLowercaseOf
        (load (randomize_capitalization true (fun _ => 0.25) 1
          ⟨7 :: (bytes "aB" ++ [0]), 0⟩).2 2) 66 :=
  ⟨by decide,
   ((C1_threshold_decides_case (fun _ => 0.25) 1 ⟨7 :: (bytes "aB" ++ [0]), 0⟩ 1
      (by decide)).1 (by decide)).1 (by norm_num)⟩

/-- C2: for either setting of `RANDOMIZE`, the output string has the length of the input string
and is the input string up to ASCII letter case: lowercasing the two gives the same string.
In particular the lowercased output for "Example.COM" is "example.com", whatever the draws. -/
theorem C2_same_length_same_letters (RANDOMIZE : Bool) (rng : Nat → ℚ) (inp : Nat)
    (p : Process) :
    let r := randomize_capitalization RANDOMIZE rng inp p
    strlen r.2.mem r.1 = strlen p.mem inp ∧
      (cstr r.2.mem r.1).map tolower = (cstr p.mem inp).map tolower ∧
      (cstr p.mem inp = bytes "Example.COM" →
        (cstr r.2.mem r.1).map tolower = bytes "example.com") := by
  intro r
  have hlow : (cstr r.2.mem r.1).map tolower = (cstr p.mem inp).map tolower := by
    cases RANDOMIZE with
    | false => rfl
    | true =>
      show (cstr (randomize_capitalization true rng inp p).2.mem
        (randomize_capitalization true rng inp p).1).map tolower = _
      rw [cstr_on, recase_lower]
      rfl
  refine ⟨?_, hlow, fun hex => ?_⟩
  · have := congrArg List.length hlow
    simpa [strlen] using this
  · rw [hlow, hex]
    decide

/-- Witness of C2: memory holding "Example.COM" and its NUL at address 2, draws alternating
between 0.25 and 0.75. -/
theorem C2_same_length_same_letters_witness :
    cstr (7 :: 7 :: (bytes "Example.COM" ++ [0, 7])) 2 = bytes "Example.COM" ∧
      (cstr (randomize_capitalization true (fun n => if n % 2 = 0 then 0.25 else 0.75) 2
              ⟨7 :: 7 :: (bytes "Example.COM" ++ [0, 7]), 0⟩).2.mem
            (randomize_capitalization true (fun n => if n % 2 = 0 then 0.25 else 0.75) 2
              ⟨7 :: 7 :: (bytes "Example.COM" ++ [0, 7]), 0⟩).1).map tolower
        = bytes "example.com" :=
  ⟨by decide,
   (C2_same_length_same_letters true (fun n => if n % 2 = 0 then 0.25 else 0.75) 2
      ⟨7 :: 7 :: (bytes "Example.COM" ++ [0, 7]), 0⟩).2.2 (by decide)⟩

/-- C3: with `RANDOMIZE` defined, when every draw is below 0.5 the output string is the input
string with every ASCII letter lowercased, and when every draw is 0.5 or more it is the input
string with every ASCII letter uppercased. -/
theorem C3_all_low_all_high (rng : Nat → ℚ) (inp : Nat) (p : Process) :
    let r := randomize_capitalization true rng inp p
    ((∀ n, rng n < 0.5) → cstr r.2.mem r.1 = (cstr p.mem inp).map tolower) ∧
      ((∀ n, 0.5 ≤ rng n) → cstr r.2.mem r.1 = (cstr p.mem inp).map toupper) := by
  intro r
  constructor
  · intro h
    show cstr (randomize_capitalization true rng inp p).2.mem
      (randomize_capitalization true rng inp p).1 = _
    rw [cstr_on, recase_all_lower rng h]
    rfl
  · intro h
    show cstr (randomize_capitalization true rng inp p).2.mem
      (randomize_capitalization true rng inp p).1 = _
    rw [cstr_on, recase_all_upper rng h]
    rfl

/-- Witness of C3: the string "Ab.9z" at address 1, under all-0.49 draws and under all-0.51
draws. -/
theorem C3_all_low_all_high_witness :
    (∀ n : Nat, (fun _ => 0.49 : Nat → ℚ) n < 0.5) ∧
      (∀ n : Nat, 0.5 ≤ (fun _ => 0.51 : Nat → ℚ) n) ∧
      cstr (randomize_capitalization true (fun _ => 0.49) 1
              ⟨7 :: (bytes "Ab.9z" ++ [0]), 0⟩).2.mem
          (randomize_capitalization true (fun _ => 0.49) 1
              ⟨7 :: (bytes "Ab.9z" ++ [0]), 0⟩).1
        = bytes "ab.9z" ∧
      cstr (randomize_capitalization true (fun _ => 0.51) 1
              ⟨7 :: (bytes "Ab.9z" ++ [0]), 0⟩).2.mem
          (randomize_capitalization true (fun _ => 0.51) 1
              ⟨7 :: (bytes "Ab.9z" ++ [0]), 0⟩).1
        = bytes "AB.9Z" :=
  ⟨fun _ => by norm_num, fun _ => by norm_num,
   ((C3_all_low_all_high (fun _ => 0.49) 1 ⟨7 :: (bytes "Ab.9z" ++ [0]), 0⟩).1
      (fun _ => by norm_num)).trans (by decide),
   ((C3_all_low_all_high (fun _ => 0.51) 1 ⟨7 :: (bytes "Ab.9z" ++ [0]), 0⟩).2
      (fun _ => by norm_num)).trans (by decide)⟩

/-- C6, as the claim states it, fails: with `RANDOMIZE` defined and every draw 0.75, called on
the string "ab" held at address 1, the function returns the address 1 it was given, and the
caller's string at that address reads "AB" after the call. -/
theorem C6_input_overwritten :
    (randomize_capitalization true (fun _ => 0.75) 1 ⟨7 :: (bytes "ab" ++ [0]), 0⟩).1 = 1 ∧
      cstr (7 :: (bytes "ab" ++ [0])) 1 = bytes "ab" ∧
      cstr (randomize_capitalization true (fun _ => 0.75) 1
              ⟨7 :: (bytes "ab" ++ [0]), 0⟩).2.mem 1 = bytes "AB" ∧
      ¬ (cstr (randomize_capitalization true (fun _ => 0.75) 1
                ⟨7 :: (bytes "ab" ++ [0]), 0⟩).2.mem 1 = cstr (7 :: (bytes "ab" ++ [0])) 1 ∧
          (randomize_capitalization true (fun _ => 0.75) 1
                ⟨7 :: (bytes "ab" ++ [0]), 0⟩).1 ≠ 1) := by
  have hout : cstr (randomize_capitalization true (fun _ => 0.75) 1
      ⟨7 :: (bytes "ab" ++ [0]), 0⟩).2.mem 1 = bytes "AB" :=
    (cstr_on (fun _ => 0.75) 1 ⟨7 :: (bytes "ab" ++ [0]), 0⟩).trans
      ((recase_all_upper (fun _ => 0.75) (fun _ => by norm_num) _ _).trans (by decide))
  refine ⟨rfl, by decide, hout, fun h => h.2 rfl⟩

/-- C6, amended: `randomize_capitalization` works in place.  For either setting of
`RANDOMIZE` the returned pointer is the pointer passed in, memory keeps its size, and every
byte outside the characters of the input string is the same after the call as before it;
when `RANDOMIZE` is not defined the whole state is the same after the call as before it. -/
theorem C6_in_place (RANDOMIZE : Bool) (rng : Nat → ℚ) (inp : Nat) (p : Process) :
    (randomize_capitalization RANDOMIZE rng inp p).1 = inp ∧
      (randomize_capitalization RANDOMIZE rng inp p).2.mem.length = p.mem.length ∧
      (∀ a, a < inp ∨ inp + strlen p.mem inp ≤ a →
        load (randomize_capitalization RANDOMIZE rng inp p).2 a = load p a) ∧
      (randomize_capitalization false rng inp p).2 = p := by
  cases RANDOMIZE with
  | false => exact ⟨rfl, rfl, fun _ _ => rfl, rfl⟩
  | true =>
    refine ⟨rfl, ?_, fun a ha => load_outside rng inp p a ha, rfl⟩
    rw [randomize_capitalization_on]
    simp only [List.length_append, recase_length, List.length_take, List.length_drop]
    omega

/-- Witness of C6 amended: around the string "ab" at address 1, the byte before it and the
terminating NUL are as before the call. -/
theorem C6_in_place_witness :
    (0 < 1 ∨ 1 + strlen (7 :: (bytes "ab" ++ [0])) 1 ≤ 0) ∧
      (3 < 1 ∨ 1 + strlen (7 :: (bytes "ab" ++ [0])) 1 ≤ 3) ∧
      load (randomize_capitalization true (fun _ => 0.75) 1
              ⟨7 :: (bytes "ab" ++ [0]), 0⟩).2 0 = 7 ∧
      load (randomize_capitalization true (fun _ => 0.75) 1
              ⟨7 :: (bytes "ab" ++ [0]), 0⟩).2 3 = 0 :=
  ⟨by decide, by decide,
   (C6_in_place true (fun _ => 0.75) 1 ⟨7 :: (bytes "ab" ++ [0]), 0⟩).2.2.1 0 (by decide),
   (C6_in_place true (fun _ => 0.75) 1 ⟨7 :: (bytes "ab" ++ [0]), 0⟩).2.2.1 3 (by decide)⟩

/-- C7: `randomize_capitalization` has no failure condition: for either setting of `RANDOMIZE`,
every pointer, every memory and every sequence of draws, the call returns a pointer and a
state; and when the string at the pointer is empty, the string at the returned pointer is empty
and no draw has been taken. -/
theorem C7_no_failure_empty_in_empty_out (RANDOMIZE : Bool) (rng : Nat → ℚ) (inp : Nat)
    (p : Process) :
    ∃ ret q, randomize_capitalization RANDOMIZE rng inp p = (ret, q) ∧
      (cstr p.mem inp = [] → cstr q.mem ret = [] ∧ q.drawn = p.drawn) := by
  refine ⟨(randomize_capitalization RANDOMIZE rng inp p).1,
    (randomize_capitalization RANDOMIZE rng inp p).2, rfl, fun hempty => ?_⟩
  cases RANDOMIZE with
  | false => exact ⟨hempty, rfl⟩
  | true =>
    constructor
    · have hlen := recase_takeWhile_length rng (p.mem.drop inp) p.drawn
      rw [cstr_on]
      apply List.eq_nil_of_length_eq_zero
      rw [hlen]
      exact List.length_eq_zero.mpr hempty
    · rw [randomize_capitalization_on]
      simp [strlen, hempty]

/-- Witness of C7: the empty string at address 1 (a NUL byte there), with `RANDOMIZE` defined. -/
theorem C7_no_failure_empty_in_empty_out_witness :
    cstr [7, 0, 7] 1 = [] ∧
      ∃ ret q, randomize_capitalization true (fun _ => 0.25) 1 ⟨[7, 0, 7], 5⟩ = (ret, q) ∧
        cstr q.mem ret = [] ∧ q.drawn = 5 :=
  ⟨by decide,
   (C7_no_failure_empty_in_empty_out true (fun _ => 0.25) 1 ⟨[7, 0, 7], 5⟩).imp
     fun _ h => h.imp fun _ h => ⟨h.1, h.2 (by decide)⟩⟩

/-- C8: when `RANDOMIZE` is not defined, `randomize_capitalization` returns the pointer it was
given, leaves every byte of memory as it was, and takes no draw from the random source. -/
theorem C8_identity_without_RANDOMIZE (rng : Nat → ℚ) (inp : Nat) (p : Process) :
    (randomize_capitalization false rng inp p).1 = inp ∧
      (randomize_capitalization false rng inp p).2.mem = p.mem ∧
      cstr (randomize_capitalization false rng inp p).2.mem
          (randomize_capitalization false rng inp p).1 = cstr p.mem inp ∧
      (randomize_capitalization false rng inp p).2.drawn = p.drawn :=
  ⟨rfl, rfl, rfl, rfl⟩

/-- C9: with `RANDOMIZE` defined, one draw is taken for each character of the input string,
letter or not, from left to right: the call on a string of `n` characters takes exactly `n`
draws, and the character at position `i` is put through `tolower` when the `i`-th draw of the
call is below 0.5 and through `toupper` otherwise. -/
theorem C9_one_draw_per_character (rng : Nat → ℚ) (inp : Nat) (p : Process) :
    (randomize_capitalization true rng inp p).2.drawn = p.drawn + strlen p.mem inp ∧
      ∀ i, i < strlen p.mem inp →
        load (randomize_capitalization true rng inp p).2
            ((randomize_capitalization true rng inp p).1 + i) =
          if rng (p.drawn + i) < 0.5 then tolower (load p (inp + i))
          else toupper (load p (inp + i)) := by
  refine ⟨?_, fun i hi => load_after rng inp p i hi⟩
  rw [randomize_capitalization_on]

/-- Witness of C9: on the string ".a" at address 1 with the draws 0.25, 0.75, 0.25, ... the
letter `a`, at position 1 with no letter before it, is decided by draw 1 (uppercase) and not by
draw 0 (lowercase); two draws are taken. -/
theorem C9_one_draw_per_character_witness :
    1 < strlen (7 :: (bytes ".a" ++ [0])) 1 ∧
      (randomize_capitalization true (fun n => if n % 2 = 0 then 0.25 else 0.75) 1
          ⟨7 :: (bytes ".a" ++ [0]), 0⟩).2.drawn = 2 ∧
      load (randomize_capitalization true (fun n => if n % 2 = 0 then 0.25 else 0.75) 1
          ⟨7 :: (bytes ".a" ++ [0]), 0⟩).2 2 = 65 :=
  ⟨by decide,
   (C9_one_draw_per_character (fun n => if n % 2 = 0 then 0.25 else 0.75) 1
      ⟨7 :: (bytes ".a" ++ [0]), 0⟩).1,
   ((C9_one_draw_per_character (fun n => if n % 2 = 0 then 0.25 else 0.75) 1
      ⟨7 :: (bytes ".a" ++ [0]), 0⟩).2 1 (by decide)).trans
      ((if_neg (by norm_num)).trans (by decide))⟩

/-! ## Proofs: `rr2sv` -/

theorem strncmp_eq_zero_iff (s2 : List Nat) (hnz : ∀ b ∈ s2, b ≠ 0) :
    ∀ s1 : List Nat, strncmp s1 s2 s2.length = 0 ↔ s1.take s2.length = s2 := by
  induction s2 with
  | nil => intro s1; simp [strncmp]
  | cons b s2 ih =>
    intro s1
    have hb : b ≠ 0 := hnz b (List.mem_cons_self _ _)
    cases s1 with
    | nil =>
      simp only [List.length_cons, strncmp, List.take_nil]
      constructor
      · intro h; omega
      · intro h; cases h
    | cons a s1 =>
      simp only [List.length_cons, strncmp, List.take_succ_cons, List.cons.injEq]
      by_cases hab : a = b
      · rw [if_pos hab, ih (fun c hc => hnz c (List.mem_cons_of_mem _ hc)) s1]
        simp [hab]
      · rw [if_neg hab]
        constructor
        · intro h; omega
        · intro h; exact absurd h.1 hab

theorem strncmp_TYPE (type : List Nat) :
    strncmp type (bytes "TYPE") 4 = 0 ↔ type.take 4 = bytes "TYPE" :=
  strncmp_eq_zero_iff (bytes "TYPE") (by decide) type

theorem rr2sv_known (gt : Nat → Nat) (ts : Nat → List Nat) (rr : Nat) (hrr : rr ≠ 0)
    (hT : (ts (gt rr)).take 4 ≠ bytes "TYPE") :
    rr2sv gt ts rr = SV.ref (rr2sv_rrclass (ts (gt rr))) rr := by
  have h : ¬ strncmp (ts (gt rr)) (bytes "TYPE") 4 = 0 := fun h => hT ((strncmp_TYPE _).mp h)
  simp only [rr2sv, sv_setref_pv, if_neg h, if_neg hrr]

theorem rr2sv_rrclass_short (type : List Nat) (hlen : type.length ≤ 14) :
    rr2sv_rrclass type = bytes "Net::LDNS::RR::" ++ type := by
  have hl : (bytes "Net::LDNS::RR::").length = 15 := by decide
  unfold rr2sv_rrclass snprintf
  apply List.take_of_length_le
  rw [List.length_append, hl]
  omega

/-! ## The claims on `rr2sv` -/

/-- C4: for a record whose type mnemonic does not begin with "TYPE" and has at most 14
characters, `rr2sv` wraps the record pointer in an object whose class name is exactly
"Net::LDNS::RR::" followed by the mnemonic; so two such records with different mnemonics get
classes with different names, each wrapping the pointer passed in. -/
theorem C4_class_named_after_mnemonic (ldns_rr_get_type : Nat → Nat)
    (ldns_rr_type2str : Nat → List Nat) (rr rr' : Nat) (hrr : rr ≠ 0) (hrr' : rr' ≠ 0)
    (hT : (ldns_rr_type2str (ldns_rr_get_type rr)).take 4 ≠ bytes "TYPE")
    (hlen : (ldns_rr_type2str (ldns_rr_get_type rr)).length ≤ 14)
    (hT' : (ldns_rr_type2str (ldns_rr_get_type rr')).take 4 ≠ bytes "TYPE")
    (hlen' : (ldns_rr_type2str (ldns_rr_get_type rr')).length ≤ 14) :
    rr2sv ldns_rr_get_type ldns_rr_type2str rr =
        SV.ref (bytes "Net::LDNS::RR::" ++ ldns_rr_type2str (ldns_rr_get_type rr)) rr ∧
      (ldns_rr_type2str (ldns_rr_get_type rr) ≠ ldns_rr_type2str (ldns_rr_get_type rr') →
        (rr2sv ldns_rr_get_type ldns_rr_type2str rr).classname ≠
          (rr2sv ldns_rr_get_type ldns_rr_type2str rr').classname) := by
  have h1 := rr2sv_known ldns_rr_get_type ldns_rr_type2str rr hrr hT
  have h2 := rr2sv_known ldns_rr_get_type ldns_rr_type2str rr' hrr' hT'
  rw [rr2sv_rrclass_short _ hlen] at h1
  rw [rr2sv_rrclass_short _ hlen'] at h2
  refine ⟨h1, fun hne heq => hne ?_⟩
  rw [h1, h2] at heq
  simp only [SV.classname, Option.some.injEq] at heq
  exact List.append_cancel_left heq

/-- Witness of C4: an `A` record (code 1) at address 16 and an `MX` record (code 15) at address
32 are wrapped in `Net::LDNS::RR::A` and in a class of another name. -/
theorem C4_class_named_after_mnemonic_witness :
    rr2sv (fun rr => if rr = 16 then 1 else 15)
        (fun t => if t = 1 then bytes "A" else bytes "MX") 16 =
        SV.ref (bytes "Net::LDNS::RR::A") 16 ∧
      (rr2sv (fun rr => if rr = 16 then 1 else 15)
          (fun t => if t = 1 then bytes "A" else bytes "MX") 16).classname ≠
        (rr2sv (fun rr => if rr = 16 then 1 else 15)
          (fun t => if t = 1 then bytes "A" else bytes "MX") 32).classname :=
  have h := C4_class_named_after_mnemonic (fun rr => if rr = 16 then 1 else 15)
    (fun t => if t = 1 then bytes "A" else bytes "MX") 16 32
    (by decide) (by decide) (by decide) (by decide) (by decide) (by decide)
  ⟨h.1, h.2 (by decide)⟩

/-- C5: an unknown record type is not an error: for a record whose type mnemonic begins with
"TYPE", `rr2sv` returns the record pointer wrapped in the one class "Net::LDNS::RR", whatever
follows "TYPE" in the mnemonic. -/
theorem C5_unknown_type_falls_back (ldns_rr_get_type : Nat → Nat)
    (ldns_rr_type2str : Nat → List Nat) (rr : Nat) (hrr : rr ≠ 0)
    (hT : (ldns_rr_type2str (ldns_rr_get_type rr)).take 4 = bytes "TYPE") :
    rr2sv ldns_rr_get_type ldns_rr_type2str rr = SV.ref (bytes "Net::LDNS::RR") rr := by
  have h : strncmp (ldns_rr_type2str (ldns_rr_get_type rr)) (bytes "TYPE") 4 = 0 :=
    (strncmp_TYPE _).mpr hT
  simp only [rr2sv, sv_setref_pv, if_pos h, if_neg hrr]

/-- Witness of C5: a record of the unassigned type 65399, mnemonic "TYPE65399", at address
16. -/
theorem C5_unknown_type_falls_back_witness :
    (16 : Nat) ≠ 0 ∧ (bytes "TYPE65399").take 4 = bytes "TYPE" ∧
      rr2sv (fun _ => 65399) (fun _ => bytes "TYPE65399") 16 =
        SV.ref (bytes "Net::LDNS::RR") 16 :=
  ⟨by decide, by decide,
   C5_unknown_type_falls_back (fun _ => 65399) (fun _ => bytes "TYPE65399") 16
     (by decide) (by decide)⟩

/-- C10: the class name `rr2sv` formats fits its 30-byte buffer: for every mnemonic it is the
first `min (15 + length) 29` characters of "Net::LDNS::RR::" followed by the mnemonic, so it
has that many characters, never more than 29, and is the whole text exactly when the mnemonic
has at most 14 characters; and two records whose mnemonics do not begin with "TYPE" and agree
on their first 14 characters are wrapped in classes of the same name. -/
theorem C10_class_name_bounded (type : List Nat) :
    rr2sv_rrclass type =
        (bytes "Net::LDNS::RR::" ++ type).take (min (15 + type.length) 29) ∧
      (rr2sv_rrclass type).length = min (15 + type.length) 29 ∧
      (rr2sv_rrclass type).length ≤ 29 ∧
      (rr2sv_rrclass type = bytes "Net::LDNS::RR::" ++ type ↔ type.length ≤ 14) ∧
      ∀ (ldns_rr_get_type : Nat → Nat) (ldns_rr_type2str : Nat → List Nat) (rr rr' : Nat),
        rr ≠ 0 → rr' ≠ 0 →
        ldns_rr_type2str (ldns_rr_get_type rr) = type →
        type.take 4 ≠ bytes "TYPE" →
        (ldns_rr_type2str (ldns_rr_get_type rr')).take 4 ≠ bytes "TYPE" →
        (ldns_rr_type2str (ldns_rr_get_type rr')).take 14 = type.take 14 →
        (rr2sv ldns_rr_get_type ldns_rr_type2str rr).classname = some (rr2sv_rrclass type) ∧
          (rr2sv ldns_rr_get_type ldns_rr_type2str rr').classname =
            some (rr2sv_rrclass type) := by
  have hl : (bytes "Net::LDNS::RR::").length = 15 := by decide
  have hlen : (rr2sv_rrclass type).length = min (15 + type.length) 29 := by
    unfold rr2sv_rrclass snprintf
    rw [List.length_take, List.length_append, hl]
    omega
  have h14 : ∀ t : List Nat, rr2sv_rrclass t = bytes "Net::LDNS::RR::" ++ t.take 14 := by
    intro t
    unfold rr2sv_rrclass snprintf
    rw [List.take_append_eq_append_take, hl, List.take_of_length_le (by omega)]
  refine ⟨?_, hlen, by omega, ⟨fun h => ?_, rr2sv_rrclass_short type⟩, ?_⟩
  · unfold rr2sv_rrclass snprintf
    by_cases h : 15 + type.length ≤ 29
    · rw [Nat.min_eq_left h, List.take_of_length_le (by rw [List.length_append, hl]; omega),
        List.take_of_length_le (by rw [List.length_append, hl])]
    · rw [Nat.min_eq_right (by omega)]
  · have := congrArg List.length h
    rw [hlen, List.length_append, hl] at this
    omega
  · intro gt ts rr rr' hrr hrr' ht hT hT' hagree
    subst ht
    rw [rr2sv_known gt ts rr hrr hT, rr2sv_known gt ts rr' hrr' hT']
    refine ⟨rfl, ?_⟩
    simp only [SV.classname, Option.some.injEq]
    rw [h14 (ts (gt rr')), h14 (ts (gt rr)), hagree]

/-- Witness of C10: the 15-character mnemonic "ABCDEFGHIJKLMNO" is cut to 29 characters, and a
record with the mnemonic "ABCDEFGHIJKLMNX", which has the same first 14 characters, is wrapped
in the class of the same name. -/
theorem C10_class_name_bounded_witness :
    rr2sv_rrclass (bytes "ABCDEFGHIJKLMNO") = bytes "Net::LDNS::RR::ABCDEFGHIJKLMN" ∧
      (rr2sv (fun rr => if rr = 16 then 1 else 2)
          (fun t => if t = 1 then bytes "ABCDEFGHIJKLMNO" else bytes "ABCDEFGHIJKLMNX")
          16).classname = some (rr2sv_rrclass (bytes "ABCDEFGHIJKLMNO")) ∧
      (rr2sv (fun rr => if rr = 16 then 1 else 2)
          (fun t => if t = 1 then bytes "ABCDEFGHIJKLMNO" else bytes "ABCDEFGHIJKLMNX")
          32).classname = some (rr2sv_rrclass (bytes "ABCDEFGHIJKLMNO")) :=
  ⟨(C10_class_name_bounded (bytes "ABCDEFGHIJKLMNO")).1.trans (by decide),
   (C10_class_name_bounded (bytes "ABCDEFGHIJKLMNO")).2.2.2.2
     (fun rr => if rr = 16 then 1 else 2)
     (fun t => if t = 1 then bytes "ABCDEFGHIJKLMNO" else bytes "ABCDEFGHIJKLMNX")
     16 32 (by decide) (by decide) (by decide) (by decide) (by decide) (by decide)⟩

end Assist
